import Mathlib

/-!
Shallow embedding of the allocation registry of `fatalloc`
(`src/allocmap.rs`), together with the metadata-mangling helpers of
`src/lib.rs`, for a 64-bit target (`usize::BITS = 64`).

Modelling conventions:

* machine words are `Nat` values below `2 ^ 64`; the bitwise complement
  used by `fetch_nand` is `· ^^^ USIZE_MAX`;
* a `Leaf` (a zero-initialised `[AtomicUsize; LEAF_LEN / usize::BITS]`)
  is modelled sparsely as an association list from word offset to word
  value, absent offsets reading as `0`;
* the live directory slice `leaves[..num_leaves]` is modelled as the list
  of its live entries, with the backing-slice capacity (`leaves.len()`)
  kept alongside;
* the `&AtomicUsize` cell reference produced by `Root::get_bitmap` /
  `Root::get_or_insert_bitmap` is modelled as the index of the owning
  entry among the live entries (the word offset within the leaf is fixed
  per operation);
* the `pthread_rwlock_t` gate serialises the operations, so sequential
  state passing below is the per-operation semantics of the source;
* `mmap` (the page arena) is modelled as always succeeding, while the
  `expect("capacity overflow")` abort in `Root::get_or_insert_bitmap` is
  modelled as `Except.error` — an `error` result stands for a process
  abort with that diagnostic, not for a value returned to the caller.
-/

namespace Fatalloc

/-- Bit width of `usize` on the modelled 64-bit target. -/
def USIZE_BITS : Nat := 64

/-- Largest `usize` value, `usize::MAX`. -/
def USIZE_MAX : Nat := 2 ^ 64 - 1

/-- Leaf table size: `const LEAF_LEN: usize = 1 << 23`. -/
def LEAF_LEN : Nat := 1 <<< 23

/-- Number of words in `Leaf::bitmap`, i.e. `LEAF_LEN / usize::BITS`. -/
def WORDS_PER_LEAF : Nat := LEAF_LEN / USIZE_BITS

/-- Key decomposition `AllocMap::expand_index`, yielding
`(root_i, bitmap_i, bit)`.  The source computes the bit offset as
`i as u32 % usize::BITS`, truncating `i` to 32 bits first. -/
def expand_index (i : Nat) : Nat × Nat × Nat :=
  let bit := (i % 2 ^ 32) % USIZE_BITS
  let bitmap_i := i / USIZE_BITS
  let root_i := bitmap_i / WORDS_PER_LEAF
  (root_i, bitmap_i % WORDS_PER_LEAF, bit)

/-- Read an association list, absent keys reading as `0`. -/
def assocLoad : List (Nat × Nat) → Nat → Nat
  | [], _ => 0
  | (k, v) :: rest, k0 => if k0 = k then v else assocLoad rest k0

/-- Write to an association list, inserting in ascending key order. -/
def assocStore : List (Nat × Nat) → Nat → Nat → List (Nat × Nat)
  | [], k0, v0 => [(k0, v0)]
  | (k, v) :: rest, k0, v0 =>
    if k0 < k then (k0, v0) :: (k, v) :: rest
    else if k0 = k then (k0, v0) :: rest
    else (k, v) :: assocStore rest k0 v0

/-- One `Leaf`: a zero-initialised fixed array of atomic words, modelled
sparsely by its nonzero-written entries. -/
structure Leaf where
  words : List (Nat × Nat)
deriving DecidableEq

/-- A freshly allocated, zero-initialised leaf. -/
def Leaf.empty : Leaf := ⟨[]⟩

/-- Atomic load of word `bitmap_i` of a leaf. -/
def Leaf.load (lf : Leaf) (bitmap_i : Nat) : Nat :=
  assocLoad lf.words bitmap_i

/-- Atomic store of value `v` to word `bitmap_i` of a leaf. -/
def Leaf.store (lf : Leaf) (bitmap_i v : Nat) : Leaf :=
  ⟨assocStore lf.words bitmap_i v⟩

/-- The root directory `Root`: the live entries `leaves[..num_leaves]`
plus the capacity of the backing slice (`leaves.len()`). -/
structure Root where
  leaves : List (Nat × Leaf)
  cap : Nat
deriving DecidableEq

/-- Placeholder entry used when indexing; never reached on live indices. -/
def dfl : Nat × Leaf := (0, Leaf.empty)

/-- Fuelled core of `<[_]>::binary_search_by_key` over the key projection
`|e| e.0`, searching the index interval `[lo, hi)`.  The fuel only bounds
the iteration count; `hi - lo` units always suffice. -/
def searchGo (l : List (Nat × Leaf)) (target : Nat) :
    Nat → Nat → Nat → Except Nat Nat
  | 0, lo, _ => .error lo
  | fuel + 1, lo, hi =>
    if lo < hi then
      let mid := (lo + hi) / 2
      let k := (l.getD mid dfl).1
      if k < target then searchGo l target fuel (mid + 1) hi
      else if target < k then searchGo l target fuel lo mid
      else .ok mid
    else .error lo

/-- Binary search of the live entries:
`leaves[..num_leaves].binary_search_by_key(&root_i, |e| e.0)`. -/
def Root.search (r : Root) (root_i : Nat) : Except Nat Nat :=
  searchGo r.leaves root_i r.leaves.length 0 r.leaves.length

/-- Lookup `Root::get_bitmap`: find the cell for `root_i`; the returned
`&AtomicUsize` is modelled as the live entry index. -/
def Root.get_bitmap (r : Root) (root_i : Nat) : Option Nat :=
  match r.search root_i with
  | .ok leaf_i => some leaf_i
  | .error _ => none

/-- A read-modify-write (`fetch_or` / `fetch_nand`) applying `f` to word
`bitmap_i` of the leaf at live entry `leaf_i`. -/
def Root.rmw (r : Root) (leaf_i bitmap_i : Nat) (f : Nat → Nat) : Root :=
  let e := r.leaves.getD leaf_i dfl
  { r with
    leaves := r.leaves.set leaf_i (e.1, e.2.store bitmap_i (f (e.2.load bitmap_i))) }

/-- New word value of `fetch_or(mask)`. -/
def orWord (w mask : Nat) : Nat := w ||| mask

/-- New word value of `fetch_nand(mask)`: `!(w & mask)` on 64 bits. -/
def nandWord (w mask : Nat) : Nat := (w &&& mask) ^^^ USIZE_MAX

/-- Overflow-checked multiplication `usize::checked_mul`. -/
def checked_mul (a b : Nat) : Option Nat :=
  if a * b ≤ USIZE_MAX then some (a * b) else none

/-- Insertion of an entry at position `p` of the live entries — the effect
of `leaves_part.rotate_right(1); leaves_part[0] = …` on the live slice. -/
def insertAt (l : List (Nat × Leaf)) (p : Nat) (e : Nat × Leaf) :
    List (Nat × Leaf) :=
  l.take p ++ e :: l.drop p

/-- Exclusive-path `Root::get_or_insert_bitmap`: re-search the live
entries; on a hit return the existing cell; on a miss, grow the backing
slice when full (aborting — `Except.error` — when `max(cap, 8) * 2`
overflows `usize`), then insert a fresh zero-initialised leaf at the
insertion point.  Returns the updated root and the owning entry index. -/
def Root.get_or_insert_bitmap (r : Root) (root_i : Nat) :
    Except String (Root × Nat) :=
  match r.search root_i with
  | .ok leaf_i => .ok (r, leaf_i)
  | .error insert_at_leaf_i =>
    let grown : Except String Root :=
      if r.leaves.length = r.cap then
        match checked_mul (max r.cap 8) 2 with
        | some new_cap => .ok { r with cap := new_cap }
        | none => .error "capacity overflow"
      else .ok r
    grown.map fun r1 =>
      ({ r1 with leaves := insertAt r1.leaves insert_at_leaf_i (root_i, Leaf.empty) },
       insert_at_leaf_i)

/-- Operation `AllocMap::get`. -/
def AllocMap.get (r : Root) (i : Nat) : Bool :=
  let (root_i, bitmap_i, bit) := expand_index i
  match r.get_bitmap root_i with
  | none => false
  | some leaf_i =>
    let mask := 1 <<< bit
    ((r.leaves.getD leaf_i dfl).2.load bitmap_i &&& mask) != 0

/-- Operation `AllocMap::test_and_clear`: the source performs
`bitmap.fetch_nand(mask, AcqRel)` and reports whether the mask bit was
set in the old word value. -/
def AllocMap.test_and_clear (r : Root) (i : Nat) : Bool × Root :=
  let (root_i, bitmap_i, bit) := expand_index i
  match r.get_bitmap root_i with
  | none => (false, r)
  | some leaf_i =>
    let mask := 1 <<< bit
    let old := (r.leaves.getD leaf_i dfl).2.load bitmap_i
    ((old &&& mask) != 0, r.rmw leaf_i bitmap_i (fun w => nandWord w mask))

/-- Operation `AllocMap::set`: fast path `fetch_or` under the shared
lock; on a miss, upgrade the lock and go through
`Root::get_or_insert_bitmap`, then `fetch_or`. -/
def AllocMap.set (r : Root) (i : Nat) : Except String Root :=
  let (root_i, bitmap_i, bit) := expand_index i
  let mask := 1 <<< bit
  match r.get_bitmap root_i with
  | some leaf_i => .ok (r.rmw leaf_i bitmap_i (fun w => orWord w mask))
  | none =>
    (r.get_or_insert_bitmap root_i).map fun ri =>
      ri.1.rmw ri.2 bitmap_i (fun w => orWord w mask)

/-- Initial registry state `AllocMap::INIT`: empty directory, no leaves. -/
def AllocMap.INIT : Root := ⟨[], 0⟩

/-- Run a sequence of `set` calls, stopping at an abort. -/
def runSet (r : Root) : List Nat → Except String Root
  | [] => .ok r
  | k :: ks =>
    match AllocMap.set r k with
    | .ok r1 => runSet r1 ks
    | .error e => .error e

/-- Decidable equality of `Except` results. -/
instance instDecEqExcept {ε α : Type} [DecidableEq ε] [DecidableEq α] :
    DecidableEq (Except ε α)
  | .ok a, .ok b =>
    if h : a = b then .isTrue (by rw [h]) else .isFalse fun hh => h (by injection hh)
  | .error e, .error f =>
    if h : e = f then .isTrue (by rw [h]) else .isFalse fun hh => h (by injection hh)
  | .ok _, .error _ => .isFalse fun hh => nomatch hh
  | .error _, .ok _ => .isFalse fun hh => nomatch hh

/-- The root segments of the live entries, in directory order. -/
def keysOf (l : List (Nat × Leaf)) : List Nat := l.map Prod.fst

/-- Directory invariant: live entries strictly sorted by root segment. -/
def SortedRoot (r : Root) : Prop := List.Pairwise (· < ·) (keysOf r.leaves)

/-- Directory capacity invariant: the backing capacity is `0` while the
directory is empty, and otherwise the smallest power of two that is at
least `max 16 num_leaves`. -/
def CapInv (r : Root) : Prop :=
  r.cap = if r.leaves.length = 0 then 0
          else 2 ^ Nat.clog 2 (max 16 r.leaves.length)

/-- The registry state reached by `set(0)` from the initial state: one
leaf for root segment `0` whose word `0` holds the single bit `1`, in a
directory of capacity `16`. -/
def afterSet0 : Root := ⟨[(0, ⟨[(0, 1)]⟩)], 16⟩

/-- Rotation `usize::rotate_left(13)` on the 64-bit target. -/
def rotl13 (x : Nat) : Nat := ((x <<< 13) % 2 ^ 64) ||| (x >>> 51)

/-- Rotation `usize::rotate_right(13)` on the 64-bit target. -/
def rotr13 (x : Nat) : Nat := (x >>> 13) ||| ((x <<< 51) % 2 ^ 64)

/-- Mangling `fn mangle(x, key) { x.rotate_left(13) ^ key }`. -/
def mangle (x key : Nat) : Nat := rotl13 x ^^^ key

/-- Unmangling `fn demangle(x, key) { (x ^ key).rotate_right(13) }`. -/
def demangle (x key : Nat) : Nat := rotr13 (x ^^^ key)

/-- Claim C6: in the zero-initialised initial registry state (empty
directory, no leaves), `get(k)` returns `false` for every key `k`. -/
theorem get_initial_false (i : Nat) : AllocMap.get AllocMap.INIT i = false := rfl

/-- Claim C7: `expand_index` computes
`bit_offset = i mod WORD_BITS`, `word_offset = (i div WORD_BITS) mod
(LEAF_BITS / WORD_BITS)` and `root_segment = (i div WORD_BITS) div
(LEAF_BITS / WORD_BITS)`, and the decomposition round-trips:
`root_segment * LEAF_BITS + word_offset * WORD_BITS + bit_offset = i`. -/
theorem expand_index_correct (i : Nat) :
    expand_index i =
      (i / USIZE_BITS / (LEAF_LEN / USIZE_BITS),
       i / USIZE_BITS % (LEAF_LEN / USIZE_BITS),
       i % USIZE_BITS) ∧
    (expand_index i).1 * LEAF_LEN + (expand_index i).2.1 * USIZE_BITS +
      (expand_index i).2.2 = i := by
  have h64 : USIZE_BITS = 64 := rfl
  have hL : LEAF_LEN = 8388608 := rfl
  have hW : WORDS_PER_LEAF = 131072 := rfl
  constructor
  · simp only [expand_index, h64, hL, hW, Prod.mk.injEq]
    refine ⟨by norm_num, by norm_num, ?_⟩
    omega
  · simp only [expand_index, h64, hL, hW]
    omega

/-- Claim C9: `set` never returns an error value — it either returns
normally or (in the model, `Except.error`) aborts the process with the
`"capacity overflow"` diagnostic when the doubled directory capacity
cannot be represented in a machine word. -/
theorem set_ok_or_aborts (r : Root) (i : Nat) :
    (∃ r1, AllocMap.set r i = .ok r1) ∨
      AllocMap.set r i = .error "capacity overflow" := by
  simp only [AllocMap.set, Root.get_or_insert_bitmap]
  rcases h : Root.get_bitmap r (expand_index i).1 with _ | leaf_i
  · rcases hs : Root.search r (expand_index i).1 with p | leaf_i
    · by_cases hfull : r.leaves.length = r.cap
      · rcases hm : checked_mul (max r.cap 8) 2 with _ | new_cap
        · right; simp [hfull, hm, Except.map]
        · left; exact ⟨_, by simp only [hfull, hm, Except.map, if_pos]; rfl⟩
      · left; exact ⟨_, by simp only [hfull, Except.map, if_neg, if_false]; rfl⟩
    · left; exact ⟨_, by simp only [Except.map]; rfl⟩
  · left; exact ⟨_, rfl⟩

/-- Claim C1 (code bug): `test_and_clear` on an unset key returns `false`
but does not leave the registry state unchanged — the source uses
`fetch_nand(mask)`, which stores `!(old & mask)` instead of
`old & !mask`, so clearing is not confined to the mask bit.  Concretely,
after `set(0)`, `test_and_clear(1)` returns `false` yet flips `get(2)`
from `false` to `true`. -/
theorem test_and_clear_nand_bug :
    AllocMap.set AllocMap.INIT 0 = .ok afterSet0 ∧
    (AllocMap.test_and_clear afterSet0 1).1 = false ∧
    AllocMap.get afterSet0 2 = false ∧
    AllocMap.get (AllocMap.test_and_clear afterSet0 1).2 2 = true ∧
    (AllocMap.test_and_clear afterSet0 1).2 ≠ afterSet0 := by decide

/-- Claim C2 (code bug): operations on one key are not independent of
other keys — after `set(0)`, a `test_and_clear(1)` (key `1 ≠ 2`) changes
the value `get(2)` returns from `false` to `true`. -/
theorem independence_violated_by_nand :
    (1 : Nat) ≠ 2 ∧
    AllocMap.set AllocMap.INIT 0 = .ok afterSet0 ∧
    AllocMap.get afterSet0 2 = false ∧
    AllocMap.get (AllocMap.test_and_clear afterSet0 1).2 2 = true := by decide

/-- Claim C3 (code bug): after `test_and_clear(0)` has returned `true`, a
later `test_and_clear(0)` returns `true` again with no intervening
`set(0)` — the intervening failed `test_and_clear(0)` stores
`!(old & mask)`, re-setting the bit.  Trace from `set(0)`:
`test_and_clear(0) = true, false, true`. -/
theorem double_free_defense_broken :
    AllocMap.set AllocMap.INIT 0 = .ok afterSet0 ∧
    (AllocMap.test_and_clear afterSet0 0).1 = true ∧
    (AllocMap.test_and_clear (AllocMap.test_and_clear afterSet0 0).2 0).1 = false ∧
    (AllocMap.test_and_clear
      (AllocMap.test_and_clear (AllocMap.test_and_clear afterSet0 0).2 0).2 0).1
      = true := by decide

/-- Claim C4 (counterexample): after inserting `M = 1` distinct root
segment the directory capacity is `16`, not the smallest power of two
`≥ max(8, 1) = 8`: the source grows an empty directory straight to
`max(0, 8) * 2 = 16` slots. -/
theorem first_insert_capacity_sixteen :
    runSet AllocMap.INIT [0] = .ok afterSet0 ∧
    2 ^ Nat.clog 2 (max 8 1) = 8 ∧ afterSet0.cap = 16 ∧ afterSet0.cap ≠ 8 := by
  refine ⟨by decide, ?_, by decide, by decide⟩
  have : Nat.clog 2 8 = 3 := by
    have := Nat.clog_pow 2 3 (by norm_num)
    simpa using this
  simp [this]

/-- Rotating left by 13 and back right by 13 is the identity on 64-bit
words. -/
theorem rotr13_rotl13 (x : Nat) (hx : x < 2 ^ 64) : rotr13 (rotl13 x) = x := by
  have hbit : ∀ k, 64 ≤ k → x.testBit k = false := fun k hk =>
    Nat.testBit_lt_two_pow (hx.trans_le (Nat.pow_le_pow_right (by norm_num) hk))
  apply Nat.eq_of_testBit_eq
  intro i
  simp only [rotl13, rotr13, Nat.testBit_lor, Nat.testBit_shiftLeft,
    Nat.testBit_shiftRight, Nat.testBit_mod_two_pow, ge_iff_le]
  rcases Nat.lt_or_ge i 64 with h64 | h64
  · rcases Nat.lt_or_ge i 51 with h51 | h51
    · have e1 : 13 + i - 13 = i := by omega
      have e2 : x.testBit (51 + (13 + i)) = false := hbit _ (by omega)
      simp [e1, e2, show 13 ≤ 13 + i from by omega, show 13 + i < 64 from by omega,
        show ¬51 ≤ i from by omega]
    · have e1 : 51 + (i - 51) = i := by omega
      have e2 : ¬13 + i < 64 := by omega
      have e3 : x.testBit (51 + (13 + i)) = false := hbit _ (by omega)
      have e4 : ¬13 ≤ i - 51 := by omega
      simp [e1, e2, e3, e4, h64, h51]
  · have e2 : ¬13 + i < 64 := by omega
    have e3 : x.testBit (51 + (13 + i)) = false := hbit _ (by omega)
    have e5 : ¬i < 64 := by omega
    simp [e2, e3, e5, hbit i h64]

/-- Claim C10: metadata mangling is invertible — for every 64-bit word
`x` and key `key`, `demangle (mangle x key) key = x`, where `mangle`
rotates left by 13 and XORs with the key and `demangle` XORs and rotates
right by 13. -/
theorem demangle_mangle (x key : Nat) (hx : x < 2 ^ 64) (_hkey : key < 2 ^ 64) :
    demangle (mangle x key) key = x := by
  have hxor : rotl13 x ^^^ key ^^^ key = rotl13 x := by
    rw [Nat.xor_assoc, Nat.xor_self, Nat.xor_zero]
  calc demangle (mangle x key) key
      = rotr13 (rotl13 x ^^^ key ^^^ key) := rfl
    _ = rotr13 (rotl13 x) := by rw [hxor]
    _ = x := rotr13_rotl13 x hx

/-- Witness for C10 at a concrete word and key. -/
theorem demangle_mangle_witness :
    (81985529216486895 : Nat) < 2 ^ 64 ∧ (1311768467463790320 : Nat) < 2 ^ 64 ∧
    demangle (mangle 81985529216486895 1311768467463790320) 1311768467463790320
      = 81985529216486895 :=
  ⟨by norm_num, by norm_num,
   demangle_mangle 81985529216486895 1311768467463790320 (by norm_num) (by norm_num)⟩

theorem assocLoad_assocStore_self (ws : List (Nat × Nat)) (k v : Nat) :
    assocLoad (assocStore ws k v) k = v := by
  induction ws with
  | nil => simp [assocStore, assocLoad]
  | cons e rest ih =>
    obtain ⟨k1, v1⟩ := e
    by_cases h1 : k < k1
    · simp [assocStore, assocLoad, h1]
    · by_cases h2 : k = k1
      · simp [assocStore, assocLoad, h1, h2]
      · simp [assocStore, assocLoad, h1, h2, ih]

theorem assocStore_assocStore_self (ws : List (Nat × Nat)) (k v w : Nat) :
    assocStore (assocStore ws k v) k w = assocStore ws k w := by
  induction ws with
  | nil => simp [assocStore]
  | cons e rest ih =>
    obtain ⟨k1, v1⟩ := e
    by_cases h1 : k < k1
    · simp [assocStore, h1, lt_irrefl]
    · by_cases h2 : k = k1
      · simp [assocStore, h1, h2, lt_irrefl]
      · simp [assocStore, h1, h2, ih]

theorem Leaf.load_store_self (lf : Leaf) (b v : Nat) :
    (lf.store b v).load b = v :=
  assocLoad_assocStore_self lf.words b v

theorem Leaf.store_store_self (lf : Leaf) (b v w : Nat) :
    (lf.store b v).store b w = lf.store b w :=
  congrArg Leaf.mk (assocStore_assocStore_self lf.words b v w)

theorem getD_set_self {l : List (Nat × Leaf)} {j : Nat} (hj : j < l.length)
    (e : Nat × Leaf) : (l.set j e).getD j dfl = e := by
  rw [List.getD_eq_getElem _ _ (by simpa using hj), List.getElem_set_self]

theorem set_getD_eq_self (l : List (Nat × Leaf)) (j : Nat) :
    l.set j (l.getD j dfl) = l := by
  rcases Nat.lt_or_ge j l.length with hj | hj
  · apply List.ext_getElem
    · simp
    · intro n h1 h2
      rw [List.getElem_set]
      split
      · subst n; rw [List.getD_eq_getElem _ _ hj]
      · rfl
  · exact List.set_eq_of_length_le hj

theorem orWord_mask_ne_zero (w b : Nat) : (orWord w (1 <<< b) &&& 1 <<< b) ≠ 0 := by
  rw [Nat.one_shiftLeft, orWord, Nat.and_two_pow, Nat.testBit_lor,
    Nat.testBit_two_pow_self]
  simp

theorem orWord_idem (w m : Nat) : orWord (orWord w m) m = orWord w m := by
  simp [orWord, Nat.lor_assoc]

theorem length_keysOf (l : List (Nat × Leaf)) : (keysOf l).length = l.length :=
  List.length_map l Prod.fst

theorem sorted_getD {l : List (Nat × Leaf)}
    (hs : List.Pairwise (· < ·) (keysOf l)) {a b : Nat} (hab : a < b)
    (hb : b < l.length) :
    (l.getD a dfl).1 < (l.getD b dfl).1 := by
  have ha : a < l.length := hab.trans hb
  rw [List.getD_eq_getElem _ _ ha, List.getD_eq_getElem _ _ hb]
  have := List.pairwise_iff_getElem.1 hs a b
    (by simpa [length_keysOf] using ha) (by simpa [length_keysOf] using hb) hab
  simpa [keysOf, List.getElem_map] using this

theorem sorted_key_unique {l : List (Nat × Leaf)}
    (hs : List.Pairwise (· < ·) (keysOf l)) {a b t : Nat}
    (ha : a < l.length) (hb : b < l.length)
    (hka : (l.getD a dfl).1 = t) (hkb : (l.getD b dfl).1 = t) : a = b := by
  rcases Nat.lt_trichotomy a b with h | h | h
  · exact absurd (sorted_getD hs h hb) (by rw [hka, hkb]; exact lt_irrefl t)
  · exact h
  · exact absurd (sorted_getD hs h ha) (by rw [hka, hkb]; exact lt_irrefl t)

theorem mem_keysOf_iff {l : List (Nat × Leaf)} {t : Nat} :
    t ∈ keysOf l ↔ ∃ j, j < l.length ∧ (l.getD j dfl).1 = t := by
  constructor
  · intro h
    obtain ⟨j, hj, he⟩ := List.mem_iff_getElem.1 h
    refine ⟨j, by simpa [length_keysOf] using hj, ?_⟩
    rw [List.getD_eq_getElem _ _ (by simpa [length_keysOf] using hj)]
    simpa [keysOf, List.getElem_map] using he
  · rintro ⟨j, hj, he⟩
    apply List.mem_iff_getElem.2
    refine ⟨j, by simpa [length_keysOf] using hj, ?_⟩
    rw [← he, List.getD_eq_getElem _ _ hj]
    simp [keysOf, List.getElem_map]

theorem searchGo_ok_spec {l : List (Nat × Leaf)} {t : Nat} :
    ∀ {fuel lo hi i : Nat}, searchGo l t fuel lo hi = .ok i →
      lo ≤ i ∧ i < hi ∧ (l.getD i dfl).1 = t := by
  intro fuel
  induction fuel with
  | zero => intro lo hi i h; simp [searchGo] at h
  | succ fuel ih =>
    intro lo hi i h
    simp only [searchGo] at h
    by_cases hlh : lo < hi
    · rw [if_pos hlh] at h
      by_cases h1 : (l.getD ((lo + hi) / 2) dfl).1 < t
      · rw [if_pos h1] at h
        obtain ⟨ha, hb, hc⟩ := ih h
        exact ⟨by omega, hb, hc⟩
      · rw [if_neg h1] at h
        by_cases h2 : t < (l.getD ((lo + hi) / 2) dfl).1
        · rw [if_pos h2] at h
          obtain ⟨ha, hb, hc⟩ := ih h
          exact ⟨ha, by omega, hc⟩
        · rw [if_neg h2] at h
          injection h with h
          subst h
          exact ⟨by omega, by omega, by omega⟩
    · rw [if_neg hlh] at h
      exact absurd h (by simp)

theorem searchGo_error_spec {l : List (Nat × Leaf)} {t : Nat}
    (hs : List.Pairwise (· < ·) (keysOf l)) :
    ∀ {fuel lo hi p : Nat}, lo ≤ hi → hi ≤ l.length → hi - lo ≤ fuel →
      searchGo l t fuel lo hi = .error p →
      lo ≤ p ∧ p ≤ hi ∧
      (∀ j, lo ≤ j → j < p → (l.getD j dfl).1 < t) ∧
      (∀ j, p ≤ j → j < hi → t < (l.getD j dfl).1) := by
  intro fuel
  induction fuel with
  | zero =>
    intro lo hi p hlohi hhi hfuel h
    simp only [searchGo] at h
    injection h with h
    subst h
    exact ⟨le_refl _, by omega, fun j h1 h2 => by omega, fun j h1 h2 => by omega⟩
  | succ fuel ih =>
    intro lo hi p hlohi hhi hfuel h
    simp only [searchGo] at h
    by_cases hlh : lo < hi
    · rw [if_pos hlh] at h
      have hmidlt : (lo + hi) / 2 < hi := by omega
      have hmidge : lo ≤ (lo + hi) / 2 := by omega
      have hmidlen : (lo + hi) / 2 < l.length := by omega
      by_cases h1 : (l.getD ((lo + hi) / 2) dfl).1 < t
      · rw [if_pos h1] at h
        obtain ⟨ha, hb, hc, hd⟩ := ih (by omega) hhi (by omega) h
        refine ⟨by omega, hb, ?_, hd⟩
        intro j hj1 hj2
        rcases Nat.lt_or_ge j ((lo + hi) / 2) with hj | hj
        · exact (sorted_getD hs hj hmidlen).trans h1
        · rcases Nat.eq_or_lt_of_le hj with hj | hj
          · rw [hj] at h1; exact h1
          · exact hc j (by omega) hj2
      · rw [if_neg h1] at h
        by_cases h2 : t < (l.getD ((lo + hi) / 2) dfl).1
        · rw [if_pos h2] at h
          obtain ⟨ha, hb, hc, hd⟩ :=
            ih hmidge (Nat.le_trans (Nat.le_of_lt hmidlt) hhi) (by omega) h
          refine ⟨ha, by omega, hc, ?_⟩
          intro j hj1 hj2
          rcases Nat.lt_or_ge j ((lo + hi) / 2) with hj | hj
          · exact hd j hj1 hj
          · rcases Nat.eq_or_lt_of_le hj with hj | hj
            · rw [hj] at h2; exact h2
            · exact h2.trans (sorted_getD hs hj (by omega))
        · rw [if_neg h2] at h
          exact absurd h (by simp)
    · rw [if_neg hlh] at h
      injection h with h
      subst h
      exact ⟨le_refl _, by omega, fun j h1 h2 => by omega, fun j h1 h2 => by omega⟩

theorem searchGo_congr {l l2 : List (Nat × Leaf)} {t : Nat}
    (hlen : l.length = l2.length)
    (hk : ∀ j, j < l.length → (l.getD j dfl).1 = (l2.getD j dfl).1) :
    ∀ fuel lo hi, hi ≤ l.length →
      searchGo l t fuel lo hi = searchGo l2 t fuel lo hi := by
  intro fuel
  induction fuel with
  | zero => intro lo hi hhi; simp [searchGo]
  | succ fuel ih =>
    intro lo hi hhi
    simp only [searchGo]
    by_cases hlh : lo < hi
    · rw [if_pos hlh, if_pos hlh]
      rw [← hk ((lo + hi) / 2) (by omega)]
      by_cases h1 : (l.getD ((lo + hi) / 2) dfl).1 < t
      · rw [if_pos h1, if_pos h1]
        exact ih _ _ hhi
      · rw [if_neg h1, if_neg h1]
        by_cases h2 : t < (l.getD ((lo + hi) / 2) dfl).1
        · rw [if_pos h2, if_pos h2]
          exact ih _ _ (by omega)
        · rw [if_neg h2, if_neg h2]
    · rw [if_neg hlh, if_neg hlh]

theorem search_ok_spec {r : Root} {t leaf_i : Nat}
    (h : r.search t = .ok leaf_i) :
    leaf_i < r.leaves.length ∧ (r.leaves.getD leaf_i dfl).1 = t := by
  obtain ⟨-, hb, hc⟩ := searchGo_ok_spec h
  exact ⟨hb, hc⟩

theorem search_error_spec {r : Root} {t p : Nat} (hs : SortedRoot r)
    (h : r.search t = .error p) :
    p ≤ r.leaves.length ∧
    (∀ j, j < p → (r.leaves.getD j dfl).1 < t) ∧
    (∀ j, p ≤ j → j < r.leaves.length → t < (r.leaves.getD j dfl).1) := by
  obtain ⟨-, hb, hc, hd⟩ :=
    searchGo_error_spec hs (Nat.zero_le _) (le_refl _) (by omega) h
  exact ⟨hb, fun j hj => hc j (Nat.zero_le _) hj, hd⟩

theorem search_error_not_mem {r : Root} {t p : Nat} (hs : SortedRoot r)
    (h : r.search t = .error p) : t ∉ keysOf r.leaves := by
  intro hmem
  obtain ⟨j, hj, hkey⟩ := mem_keysOf_iff.1 hmem
  obtain ⟨-, hlt, hgt⟩ := search_error_spec hs h
  rcases Nat.lt_or_ge j p with hjp | hjp
  · exact absurd (hlt j hjp) (by rw [hkey]; exact lt_irrefl t)
  · exact absurd (hgt j hjp hj) (by rw [hkey]; exact lt_irrefl t)

theorem search_complete {r : Root} {t : Nat} (hs : SortedRoot r)
    (hmem : t ∈ keysOf r.leaves) : ∃ leaf_i, r.search t = .ok leaf_i := by
  rcases h : r.search t with p | leaf_i
  · exact absurd hmem (search_error_not_mem hs h)
  · exact ⟨leaf_i, rfl⟩

theorem search_congr {r r2 : Root} (h : keysOf r.leaves = keysOf r2.leaves)
    (t : Nat) : r.search t = r2.search t := by
  have hlen : r.leaves.length = r2.leaves.length := by
    rw [← length_keysOf, ← length_keysOf, h]
  have hk : ∀ j, j < r.leaves.length →
      (r.leaves.getD j dfl).1 = (r2.leaves.getD j dfl).1 := by
    intro j hj
    have h1 : (keysOf r.leaves).getD j 0 = (r.leaves.getD j dfl).1 := by
      rw [List.getD_eq_getElem _ 0 (by simpa [length_keysOf] using hj),
        List.getD_eq_getElem _ _ hj]
      simp [keysOf, List.getElem_map]
    have h2 : (keysOf r2.leaves).getD j 0 = (r2.leaves.getD j dfl).1 := by
      rw [List.getD_eq_getElem _ 0 (by simpa [length_keysOf] using hlen ▸ hj),
        List.getD_eq_getElem _ _ (hlen ▸ hj)]
      simp [keysOf, List.getElem_map]
    rw [← h1, ← h2, h]
  unfold Root.search
  rw [← hlen]
  exact searchGo_congr hlen hk _ _ _ (le_refl _)

theorem length_insertAt {l : List (Nat × Leaf)} {p : Nat} (hp : p ≤ l.length)
    (e : Nat × Leaf) : (insertAt l p e).length = l.length + 1 := by
  simp [insertAt]
  omega

theorem keysOf_insertAt (l : List (Nat × Leaf)) (p : Nat) (e : Nat × Leaf) :
    keysOf (insertAt l p e) =
      (keysOf l).take p ++ e.1 :: (keysOf l).drop p := by
  simp [insertAt, keysOf, List.map_take, List.map_drop]

theorem getD_insertAt_self {l : List (Nat × Leaf)} {p : Nat} (hp : p ≤ l.length)
    (e : Nat × Leaf) : (insertAt l p e).getD p dfl = e := by
  have htk : (l.take p).length = p := by simp; omega
  unfold insertAt
  rw [List.getD_append_right _ _ _ _ (by omega), htk]
  simp

theorem mem_keysOf_insertAt {l : List (Nat × Leaf)} {p x : Nat}
    (e : Nat × Leaf) :
    x ∈ keysOf (insertAt l p e) ↔ x = e.1 ∨ x ∈ keysOf l := by
  rw [keysOf_insertAt]
  constructor
  · intro h
    rcases List.mem_append.1 h with h | h
    · exact Or.inr (List.mem_of_mem_take h)
    · rcases List.mem_cons.1 h with h | h
      · exact Or.inl h
      · exact Or.inr (List.mem_of_mem_drop h)
  · intro h
    rcases h with h | h
    · exact List.mem_append.2 (Or.inr (List.mem_cons.2 (Or.inl h)))
    · rcases List.mem_append.1
        ((List.take_append_drop p (keysOf l)).symm ▸ h : x ∈ _) with h | h
      · exact List.mem_append.2 (Or.inl h)
      · exact List.mem_append.2 (Or.inr (List.mem_cons.2 (Or.inr h)))

theorem sorted_insertAt {l : List (Nat × Leaf)} {p t : Nat}
    (hs : List.Pairwise (· < ·) (keysOf l)) (hp : p ≤ l.length)
    (hlt : ∀ j, j < p → (l.getD j dfl).1 < t)
    (hgt : ∀ j, p ≤ j → j < l.length → t < (l.getD j dfl).1)
    (lf : Leaf) :
    List.Pairwise (· < ·) (keysOf (insertAt l p (t, lf))) := by
  rw [keysOf_insertAt]
  have hkl : (keysOf l).length = l.length := length_keysOf l
  have hmem_take : ∀ x ∈ (keysOf l).take p, x < t := by
    intro x hx
    obtain ⟨j, hj, hjx⟩ := List.mem_iff_getElem.1 hx
    have hjp : j < p := by
      have := hj
      simp [hkl] at this
      omega
    have hjl : j < l.length := by omega
    have : x = (l.getD j dfl).1 := by
      rw [List.getD_eq_getElem _ _ hjl, ← hjx, List.getElem_take]
      simp [keysOf, List.getElem_map]
    rw [this]
    exact hlt j hjp
  have hmem_drop : ∀ x ∈ (keysOf l).drop p, t < x := by
    intro x hx
    obtain ⟨j, hj, hjx⟩ := List.mem_iff_getElem.1 hx
    have hjl : p + j < l.length := by
      have := hj
      simp [hkl] at this
      omega
    have : x = (l.getD (p + j) dfl).1 := by
      rw [List.getD_eq_getElem _ _ hjl, ← hjx, List.getElem_drop]
      simp [keysOf, List.getElem_map]
    rw [this]
    exact hgt (p + j) (by omega) hjl
  rw [List.pairwise_append]
  refine ⟨List.Pairwise.sublist (List.take_sublist _ _) hs, ?_, ?_⟩
  · rw [List.pairwise_cons]
    exact ⟨hmem_drop, List.Pairwise.sublist (List.drop_sublist _ _) hs⟩
  · intro a ha b hb
    rcases List.mem_cons.1 hb with hb | hb
    · rw [hb]; exact hmem_take a ha
    · exact (hmem_take a ha).trans (hmem_drop b hb)

theorem keysOf_set_entry {l : List (Nat × Leaf)} {j : Nat} {lf : Leaf} :
    keysOf (l.set j ((l.getD j dfl).1, lf)) = keysOf l := by
  rcases Nat.lt_or_ge j l.length with hj | hj
  · apply List.ext_getElem
    · simp [keysOf]
    · intro n h1 h2
      simp only [keysOf, List.getElem_map, List.getElem_set]
      split
      · subst n
        rw [List.getD_eq_getElem _ _ hj]
      · rfl
  · rw [List.set_eq_of_length_le hj]

theorem keysOf_rmw (r : Root) (leaf_i bitmap_i : Nat) (f : Nat → Nat) :
    keysOf (r.rmw leaf_i bitmap_i f).leaves = keysOf r.leaves :=
  keysOf_set_entry

theorem cap_rmw (r : Root) (leaf_i bitmap_i : Nat) (f : Nat → Nat) :
    (r.rmw leaf_i bitmap_i f).cap = r.cap := rfl

theorem length_rmw (r : Root) (leaf_i bitmap_i : Nat) (f : Nat → Nat) :
    (r.rmw leaf_i bitmap_i f).leaves.length = r.leaves.length :=
  List.length_set r.leaves leaf_i _

theorem get_bitmap_some_iff {r : Root} {t leaf_i : Nat} :
    r.get_bitmap t = some leaf_i ↔ r.search t = .ok leaf_i := by
  unfold Root.get_bitmap
  rcases h : r.search t with p | j <;> simp

theorem get_bitmap_none_iff {r : Root} {t : Nat} :
    r.get_bitmap t = none ↔ ∃ p, r.search t = .error p := by
  unfold Root.get_bitmap
  rcases h : r.search t with p | j <;> simp

theorem get_eq (r : Root) (i : Nat) :
    AllocMap.get r i =
      match r.get_bitmap (expand_index i).1 with
      | none => false
      | some leaf_i =>
        ((r.leaves.getD leaf_i dfl).2.load (expand_index i).2.1 &&&
          (1 <<< (expand_index i).2.2)) != 0 := rfl

theorem test_and_clear_eq (r : Root) (i : Nat) :
    AllocMap.test_and_clear r i =
      match r.get_bitmap (expand_index i).1 with
      | none => (false, r)
      | some leaf_i =>
        (((r.leaves.getD leaf_i dfl).2.load (expand_index i).2.1 &&&
            (1 <<< (expand_index i).2.2)) != 0,
         r.rmw leaf_i (expand_index i).2.1
           (fun w => nandWord w (1 <<< (expand_index i).2.2))) := rfl

theorem set_eq (r : Root) (i : Nat) :
    AllocMap.set r i =
      match r.get_bitmap (expand_index i).1 with
      | some leaf_i =>
        .ok (r.rmw leaf_i (expand_index i).2.1
          (fun w => orWord w (1 <<< (expand_index i).2.2)))
      | none =>
        (r.get_or_insert_bitmap (expand_index i).1).map fun ri =>
          ri.1.rmw ri.2 (expand_index i).2.1
            fun w => orWord w (1 <<< (expand_index i).2.2) := rfl

theorem rmw_def (r : Root) (leaf_i bmi : Nat) (f : Nat → Nat) :
    r.rmw leaf_i bmi f =
      { r with
        leaves := r.leaves.set leaf_i
          ((r.leaves.getD leaf_i dfl).1,
           (r.leaves.getD leaf_i dfl).2.store bmi
             (f ((r.leaves.getD leaf_i dfl).2.load bmi))) } := rfl

theorem rmw_or_fix {r : Root} {leaf_i bmi v mask key : Nat} {lf0 : Leaf}
    (he : r.leaves.getD leaf_i dfl = (key, lf0.store bmi v))
    (hv : orWord v mask = v) :
    r.rmw leaf_i bmi (fun w => orWord w mask) = r := by
  rw [rmw_def, he]
  simp only [Leaf.load_store_self, hv, Leaf.store_store_self]
  rw [← he, set_getD_eq_self]

theorem get_true_of {r2 : Root} {i idx : Nat} {lf0 : Leaf} {w key : Nat}
    (hsearch : r2.search (expand_index i).1 = .ok idx)
    (he : r2.leaves.getD idx dfl =
      (key, lf0.store (expand_index i).2.1
        (orWord w (1 <<< (expand_index i).2.2)))) :
    AllocMap.get r2 i = true := by
  rw [get_eq]
  simp only [get_bitmap_some_iff.2 hsearch, he, Leaf.load_store_self]
  simp only [bne_iff_ne, ne_eq, decide_eq_true_eq]
  exact orWord_mask_ne_zero w _

theorem set_fix_of {r2 : Root} {i idx : Nat} {lf0 : Leaf} {w key : Nat}
    (hsearch : r2.search (expand_index i).1 = .ok idx)
    (he : r2.leaves.getD idx dfl =
      (key, lf0.store (expand_index i).2.1
        (orWord w (1 <<< (expand_index i).2.2)))) :
    AllocMap.set r2 i = .ok r2 := by
  rw [set_eq]
  simp only [get_bitmap_some_iff.2 hsearch]
  rw [rmw_or_fix he (orWord_idem w _)]

theorem cap_formula_succ_full {cap len : Nat}
    (hcap : cap = if len = 0 then 0 else 2 ^ Nat.clog 2 (max 16 len))
    (hfull : len = cap) :
    max cap 8 * 2 = 2 ^ Nat.clog 2 (max 16 (len + 1)) := by
  by_cases h0 : len = 0
  · subst h0
    rw [if_pos rfl] at hcap
    subst hcap
    have h16 : Nat.clog 2 (max 16 (0 + 1)) = 4 := by
      have := Nat.clog_pow 2 4 (by norm_num)
      norm_num at this ⊢
      exact this
    rw [h16]
    norm_num
  · rw [if_neg h0] at hcap
    have hpow : max 16 len ≤ 2 ^ Nat.clog 2 (max 16 len) :=
      Nat.le_pow_clog (by norm_num) _
    have h16 : 16 ≤ cap := by rw [hcap]; omega
    have hmax : max cap 8 = cap := by omega
    have hlen16 : 16 ≤ len := by omega
    have hmaxlen : max 16 (len + 1) = len + 1 := by omega
    rw [hmax, hmaxlen]
    have hlencap : len = 2 ^ Nat.clog 2 (max 16 len) := by omega
    have hle : len + 1 ≤ 2 ^ (Nat.clog 2 (max 16 len) + 1) := by
      rw [pow_succ]
      omega
    have h1 : Nat.clog 2 (len + 1) ≤ Nat.clog 2 (max 16 len) + 1 :=
      (Nat.le_pow_iff_clog_le (by norm_num)).1 hle
    have h2 : ¬Nat.clog 2 (len + 1) ≤ Nat.clog 2 (max 16 len) := by
      intro hc
      have := (Nat.le_pow_iff_clog_le (b := 2) (by norm_num)).2 hc
      omega
    have h3 : Nat.clog 2 (len + 1) = Nat.clog 2 (max 16 len) + 1 := by omega
    rw [h3, pow_succ, hcap]

theorem cap_formula_succ_notfull {cap len : Nat}
    (hcap : cap = if len = 0 then 0 else 2 ^ Nat.clog 2 (max 16 len))
    (hne : ¬len = cap) :
    cap = 2 ^ Nat.clog 2 (max 16 (len + 1)) := by
  by_cases h0 : len = 0
  · exfalso
    rw [if_pos h0] at hcap
    omega
  · rw [if_neg h0] at hcap
    have hpow : max 16 len ≤ 2 ^ Nat.clog 2 (max 16 len) :=
      Nat.le_pow_clog (by norm_num) _
    have h16 : 16 ≤ cap := by rw [hcap]; omega
    have hlenlt : len < cap := by
      rcases Nat.lt_or_ge len cap with h | h
      · exact h
      · exfalso; rw [hcap] at h hne; omega
    have hup : max 16 (len + 1) ≤ cap := by omega
    have h1 : Nat.clog 2 (max 16 (len + 1)) ≤ Nat.clog 2 (max 16 len) := by
      have := (Nat.le_pow_iff_clog_le (b := 2) (by norm_num)).1 (hcap ▸ hup)
      exact this
    have h2 : Nat.clog 2 (max 16 len) ≤ Nat.clog 2 (max 16 (len + 1)) :=
      Nat.clog_mono_right _ (by omega)
    rw [hcap]
    congr 1
    omega

theorem set_eq_fast {r : Root} {i leaf_i : Nat}
    (hv : r.get_bitmap (expand_index i).1 = some leaf_i) :
    AllocMap.set r i = .ok (r.rmw leaf_i (expand_index i).2.1
      (fun w => orWord w (1 <<< (expand_index i).2.2))) := by
  rw [set_eq, hv]

theorem set_eq_slow {r : Root} {i : Nat}
    (hv : r.get_bitmap (expand_index i).1 = none) :
    AllocMap.set r i =
      (r.get_or_insert_bitmap (expand_index i).1).map fun ri =>
        ri.1.rmw ri.2 (expand_index i).2.1
          fun w => orWord w (1 <<< (expand_index i).2.2) := by
  rw [set_eq, hv]

theorem get_or_insert_eq_hit {r : Root} {t leaf_i : Nat}
    (h : r.search t = .ok leaf_i) :
    r.get_or_insert_bitmap t = .ok (r, leaf_i) := by
  unfold Root.get_or_insert_bitmap
  rw [h]

theorem get_or_insert_eq_miss_nogrow {r : Root} {t p : Nat}
    (h : r.search t = .error p) (hfull : ¬r.leaves.length = r.cap) :
    r.get_or_insert_bitmap t =
      .ok (⟨insertAt r.leaves p (t, Leaf.empty), r.cap⟩, p) := by
  unfold Root.get_or_insert_bitmap
  rw [h]
  simp [hfull, Except.map]

theorem get_or_insert_eq_miss_grow {r : Root} {t p nc : Nat}
    (h : r.search t = .error p) (hfull : r.leaves.length = r.cap)
    (hm : checked_mul (max r.cap 8) 2 = some nc) :
    r.get_or_insert_bitmap t =
      .ok (⟨insertAt r.leaves p (t, Leaf.empty), nc⟩, p) := by
  unfold Root.get_or_insert_bitmap
  rw [h]
  simp [hfull, hm, Except.map]

theorem get_or_insert_eq_miss_overflow {r : Root} {t p : Nat}
    (h : r.search t = .error p) (hfull : r.leaves.length = r.cap)
    (hm : checked_mul (max r.cap 8) 2 = none) :
    r.get_or_insert_bitmap t = .error "capacity overflow" := by
  unfold Root.get_or_insert_bitmap
  rw [h]
  simp [hfull, hm, Except.map]

theorem checked_mul_some {a b c : Nat} (h : checked_mul a b = some c) :
    c = a * b ∧ a * b ≤ USIZE_MAX := by
  unfold checked_mul at h
  by_cases hle : a * b ≤ USIZE_MAX
  · rw [if_pos hle] at h
    injection h with h
    exact ⟨h.symm, hle⟩
  · rw [if_neg hle] at h
    exact absurd h (by simp)

/-- Central description of a successful `set`: it keeps the directory
sorted, adds exactly the key's root segment to the directory key set,
preserves the capacity invariant, sets the bit (a following `get` returns
`true`), and is idempotent (a second `set` of the same key returns the
same state). -/
theorem set_spec {r r2 : Root} {i : Nat} (hs : SortedRoot r)
    (h : AllocMap.set r i = .ok r2) :
    SortedRoot r2 ∧
    (keysOf r2.leaves).toFinset =
      insert (expand_index i).1 (keysOf r.leaves).toFinset ∧
    (CapInv r → CapInv r2) ∧
    AllocMap.get r2 i = true ∧
    AllocMap.set r2 i = .ok r2 := by
  rcases hv : r.get_bitmap (expand_index i).1 with _ | leaf_i
  · -- slow path: the leaf was absent under the shared lock
    rw [set_eq_slow hv] at h
    obtain ⟨p, hsearch⟩ := get_bitmap_none_iff.1 hv
    obtain ⟨hple, hlt, hgt⟩ := search_error_spec hs hsearch
    have hnotmem : (expand_index i).1 ∉ keysOf r.leaves :=
      search_error_not_mem hs hsearch
    have hshape : ∃ c1,
        r2 = (Root.mk (insertAt r.leaves p ((expand_index i).1, Leaf.empty)) c1).rmw
          p (expand_index i).2.1 (fun w => orWord w (1 <<< (expand_index i).2.2)) ∧
        (CapInv r → c1 = 2 ^ Nat.clog 2 (max 16 (r.leaves.length + 1))) := by
      by_cases hfull : r.leaves.length = r.cap
      · rcases hm : checked_mul (max r.cap 8) 2 with _ | nc
        · rw [get_or_insert_eq_miss_overflow hsearch hfull hm] at h
          exact absurd h (by simp [Except.map])
        · rw [get_or_insert_eq_miss_grow hsearch hfull hm] at h
          simp only [Except.map] at h
          injection h with h
          refine ⟨nc, h.symm, fun hc => ?_⟩
          obtain ⟨hnc, -⟩ := checked_mul_some hm
          rw [hnc]
          exact cap_formula_succ_full hc hfull
      · rw [get_or_insert_eq_miss_nogrow hsearch hfull] at h
        simp only [Except.map] at h
        injection h with h
        refine ⟨r.cap, h.symm, fun hc => ?_⟩
        exact cap_formula_succ_notfull hc hfull
    obtain ⟨c1, hr2, hc1⟩ := hshape
    have hsl2 : List.Pairwise (· < ·)
        (keysOf (insertAt r.leaves p ((expand_index i).1, Leaf.empty))) :=
      sorted_insertAt hs hple hlt hgt Leaf.empty
    have hkeys2 : keysOf r2.leaves =
        keysOf (insertAt r.leaves p ((expand_index i).1, Leaf.empty)) := by
      rw [hr2]; exact keysOf_rmw _ _ _ _
    have hsorted2 : SortedRoot r2 := by
      unfold SortedRoot
      rw [hkeys2]
      exact hsl2
    have hlen1 : (insertAt r.leaves p ((expand_index i).1, Leaf.empty)).length =
        r.leaves.length + 1 := length_insertAt hple _
    have hlen2 : r2.leaves.length = r.leaves.length + 1 := by
      rw [hr2, length_rmw, hlen1]
    have hple2 : p < (insertAt r.leaves p ((expand_index i).1, Leaf.empty)).length := by
      rw [hlen1]; omega
    have he1 : (insertAt r.leaves p ((expand_index i).1, Leaf.empty)).getD p dfl =
        ((expand_index i).1, Leaf.empty) := getD_insertAt_self hple _
    have he2 : r2.leaves.getD p dfl =
        ((expand_index i).1, Leaf.empty.store (expand_index i).2.1
          (orWord (Leaf.empty.load (expand_index i).2.1)
            (1 <<< (expand_index i).2.2))) := by
      rw [hr2, rmw_def]
      simp only
      rw [he1]
      exact getD_set_self (by simpa using hple2) _
    have hmem2 : (expand_index i).1 ∈ keysOf r2.leaves := by
      rw [hkeys2]
      exact (mem_keysOf_insertAt _).2 (Or.inl rfl)
    obtain ⟨j, hsj⟩ := search_complete hsorted2 hmem2
    obtain ⟨hjlen, hjkey⟩ := search_ok_spec hsj
    have hpkey : (r2.leaves.getD p dfl).1 = (expand_index i).1 := by rw [he2]
    have hsearch2 : r2.search (expand_index i).1 = .ok p := by
      have hjp : j = p :=
        sorted_key_unique hsorted2 hjlen (by omega) hjkey hpkey
      rw [← hjp]; exact hsj
    refine ⟨hsorted2, ?_, ?_, get_true_of hsearch2 he2, set_fix_of hsearch2 he2⟩
    · apply Finset.ext
      intro x
      simp only [List.mem_toFinset, Finset.mem_insert, hkeys2,
        mem_keysOf_insertAt]
    · intro hc
      unfold CapInv
      rw [hlen2]
      have hcap2 : r2.cap = c1 := by rw [hr2, cap_rmw]
      rw [hcap2, hc1 hc]
      simp
  · -- fast path: the leaf exists; a single `fetch_or`
    rw [set_eq_fast hv] at h
    injection h with h
    have hsearchr : r.search (expand_index i).1 = .ok leaf_i :=
      get_bitmap_some_iff.1 hv
    obtain ⟨hlen, hkey⟩ := search_ok_spec hsearchr
    have hkeys2 : keysOf r2.leaves = keysOf r.leaves := by
      rw [← h]; exact keysOf_rmw _ _ _ _
    have hsorted2 : SortedRoot r2 := by
      unfold SortedRoot
      rw [hkeys2]
      exact hs
    have hlen2 : r2.leaves.length = r.leaves.length := by
      rw [← h, length_rmw]
    have he2 : r2.leaves.getD leaf_i dfl =
        ((r.leaves.getD leaf_i dfl).1,
         (r.leaves.getD leaf_i dfl).2.store (expand_index i).2.1
           (orWord ((r.leaves.getD leaf_i dfl).2.load (expand_index i).2.1)
             (1 <<< (expand_index i).2.2))) := by
      rw [← h, rmw_def]
      simp only
      exact getD_set_self (by simpa using hlen) _
    have hsearch2 : r2.search (expand_index i).1 = .ok leaf_i := by
      rw [search_congr hkeys2]
      exact hsearchr
    refine ⟨hsorted2, ?_, ?_, get_true_of hsearch2 he2, set_fix_of hsearch2 he2⟩
    · rw [hkeys2]
      have hmem : (expand_index i).1 ∈ keysOf r.leaves :=
        mem_keysOf_iff.2 ⟨leaf_i, hlen, hkey⟩
      exact (Finset.insert_eq_self.2 (List.mem_toFinset.2 hmem)).symm
    · intro hc
      unfold CapInv
      rw [hlen2]
      have : r2.cap = r.cap := by rw [← h, cap_rmw]
      rw [this]
      exact hc

theorem tac_sorted (r : Root) (i : Nat) (hs : SortedRoot r) :
    SortedRoot (AllocMap.test_and_clear r i).2 := by
  rcases hv : r.get_bitmap (expand_index i).1 with _ | leaf_i
  · simp only [test_and_clear_eq, hv]
    exact hs
  · simp only [test_and_clear_eq, hv]
    unfold SortedRoot
    rw [keysOf_rmw]
    exact hs

/-- Claim C5: `set` is idempotent — from a sorted registry state, once
`set(i)` has produced state `r2`, `get(i)` returns `true` there, and any
number `n + 1 ≥ 1` of consecutive `set(i)` calls produces that same state
`r2`. -/
theorem set_idempotent (r : Root) (i n : Nat) (r2 : Root) (hs : SortedRoot r)
    (h : AllocMap.set r i = .ok r2) :
    AllocMap.get r2 i = true ∧
    runSet r (List.replicate (n + 1) i) = .ok r2 := by
  obtain ⟨hs2, -, -, hget, hset⟩ := set_spec hs h
  refine ⟨hget, ?_⟩
  have aux : ∀ m, runSet r2 (List.replicate m i) = .ok r2 := by
    intro m
    induction m with
    | zero => rfl
    | succ m ih =>
      rw [List.replicate_succ]
      unfold runSet
      rw [hset]
      exact ih
  rw [List.replicate_succ]
  unfold runSet
  rw [h]
  exact aux n

/-- Witness for C5: two consecutive `set(0)` from the initial state give
the same state as one, and `get(0)` is `true` there. -/
theorem set_idempotent_witness :
    AllocMap.get afterSet0 0 = true ∧
    runSet AllocMap.INIT (List.replicate 2 0) = .ok afterSet0 :=
  set_idempotent AllocMap.INIT 0 1 afterSet0 List.Pairwise.nil (by decide)

/-- Claim C8: the exclusive-path insertion re-searches the live entries:
on a hit it returns the existing entry and inserts nothing; on any
successful call the resulting directory is strictly sorted with no
duplicate root segments and owns an entry for the requested segment; the
sorted invariant is preserved by `set` and by `test_and_clear`. -/
theorem insertion_preserves_sorted_invariant (r : Root) (root_i : Nat)
    (hs : SortedRoot r) :
    (root_i ∈ keysOf r.leaves →
      ∃ leaf_i, r.get_or_insert_bitmap root_i = .ok (r, leaf_i) ∧
        (r.leaves.getD leaf_i dfl).1 = root_i) ∧
    (∀ r1 p, r.get_or_insert_bitmap root_i = .ok (r1, p) →
      SortedRoot r1 ∧ (keysOf r1.leaves).Nodup ∧
      (r1.leaves.getD p dfl).1 = root_i ∧
      (root_i ∈ keysOf r.leaves → r1 = r)) ∧
    (∀ i r2, AllocMap.set r i = .ok r2 → SortedRoot r2) ∧
    (∀ i, SortedRoot (AllocMap.test_and_clear r i).2) := by
  refine ⟨?_, ?_, fun i r2 h => (set_spec hs h).1, fun i => tac_sorted r i hs⟩
  · intro hmem
    obtain ⟨leaf_i, hsj⟩ := search_complete hs hmem
    obtain ⟨-, hkey⟩ := search_ok_spec hsj
    exact ⟨leaf_i, get_or_insert_eq_hit hsj, hkey⟩
  · intro r1 p hgi
    rcases hsr : r.search root_i with p0 | leaf_i
    · have hnotmem := search_error_not_mem hs hsr
      obtain ⟨hple, hlt, hgt⟩ := search_error_spec hs hsr
      have hshape : r1.leaves = insertAt r.leaves p0 (root_i, Leaf.empty) ∧
          p = p0 := by
        by_cases hfull : r.leaves.length = r.cap
        · rcases hm : checked_mul (max r.cap 8) 2 with _ | nc
          · rw [get_or_insert_eq_miss_overflow hsr hfull hm] at hgi
            exact absurd hgi (by simp)
          · rw [get_or_insert_eq_miss_grow hsr hfull hm] at hgi
            injection hgi with hgi
            rw [Prod.mk.injEq] at hgi
            exact ⟨by rw [← hgi.1], hgi.2.symm⟩
        · rw [get_or_insert_eq_miss_nogrow hsr hfull] at hgi
          injection hgi with hgi
          rw [Prod.mk.injEq] at hgi
          exact ⟨by rw [← hgi.1], hgi.2.symm⟩
      obtain ⟨hleaves, hp⟩ := hshape
      subst hp
      have hsorted1 : List.Pairwise (· < ·) (keysOf r1.leaves) := by
        rw [hleaves]
        exact sorted_insertAt hs hple hlt hgt Leaf.empty
      refine ⟨hsorted1, hsorted1.imp Nat.ne_of_lt, ?_,
        fun hmem => absurd hmem hnotmem⟩
      rw [hleaves, getD_insertAt_self hple]
    · rw [get_or_insert_eq_hit hsr] at hgi
      injection hgi with hgi
      rw [Prod.mk.injEq] at hgi
      obtain ⟨hA, hB⟩ := hgi
      subst hA
      subst hB
      obtain ⟨-, hkey⟩ := search_ok_spec hsr
      exact ⟨hs, hs.imp Nat.ne_of_lt, hkey, fun _ => rfl⟩

/-- Witness for C8: the directory reached by `set(0)` is sorted with no
duplicates, via the exclusive-path lemma at segment `0`. -/
theorem insertion_preserves_sorted_invariant_witness :
    SortedRoot afterSet0 ∧ (keysOf afterSet0.leaves).Nodup := by
  have h := (insertion_preserves_sorted_invariant afterSet0 0
    (show List.Pairwise (· < ·) (keysOf afterSet0.leaves) by decide)).2.1
    afterSet0 0 (by decide)
  exact ⟨h.1, h.2.1⟩

theorem runSet_inv {r0 : Root} {ks : List Nat} {r : Root}
    (h : runSet r0 ks = .ok r) (hs : SortedRoot r0) (hc : CapInv r0) :
    SortedRoot r ∧ CapInv r ∧
    (keysOf r.leaves).toFinset =
      (keysOf r0.leaves).toFinset ∪
        (ks.map fun k => (expand_index k).1).toFinset := by
  induction ks generalizing r0 with
  | nil =>
    injection h with h
    subst h
    simpa using ⟨hs, hc⟩
  | cons k ks ih =>
    rcases hset : AllocMap.set r0 k with e | r1
    · unfold runSet at h
      rw [hset] at h
      exact absurd h (by simp)
    · unfold runSet at h
      rw [hset] at h
      obtain ⟨hs1, hfin1, hc1, -, -⟩ := set_spec hs hset
      obtain ⟨hs2, hc2, hfin2⟩ := ih h hs1 (hc1 hc)
      refine ⟨hs2, hc2, ?_⟩
      rw [hfin2, hfin1]
      apply Finset.ext
      intro x
      simp only [Finset.mem_union, Finset.mem_insert, List.map_cons,
        List.toFinset_cons, List.mem_toFinset]
      tauto

/-- Claim C4 (amended): after a sequence of `set` calls covering `M`
distinct root segments, the directory capacity is `0` when `M = 0` and
otherwise the smallest power of two that is at least `max(16, M)` (the
source grows an empty directory straight to `16`), and the live entries
are strictly sorted by root segment. -/
theorem directory_growth (ks : List Nat) (r : Root)
    (h : runSet AllocMap.INIT ks = .ok r) :
    SortedRoot r ∧
    r.cap = (if ((ks.map fun k => (expand_index k).1).toFinset).card = 0 then 0
             else 2 ^ Nat.clog 2
               (max 16 ((ks.map fun k => (expand_index k).1).toFinset).card)) := by
  obtain ⟨hs, hc, hfin⟩ := runSet_inv h List.Pairwise.nil rfl
  refine ⟨hs, ?_⟩
  have hnodup : (keysOf r.leaves).Nodup := hs.imp Nat.ne_of_lt
  have hcard : (keysOf r.leaves).toFinset.card = r.leaves.length := by
    rw [List.toFinset_card_of_nodup hnodup, length_keysOf]
  have hfin2 : (keysOf r.leaves).toFinset =
      (ks.map fun k => (expand_index k).1).toFinset := by
    rw [hfin]
    simp [AllocMap.INIT, keysOf]
  unfold CapInv at hc
  have hlen : r.leaves.length =
      ((ks.map fun k => (expand_index k).1).toFinset).card := by
    rw [← hcard, hfin2]
  rw [hlen] at hc
  exact hc

/-- Witness for C4 (amended) at the single-key run `set(0)`: one distinct
segment, capacity `2 ^ clog 2 16 = 16`. -/
theorem directory_growth_witness :
    SortedRoot afterSet0 ∧
    afterSet0.cap =
      (if ((([0] : List Nat).map fun k => (expand_index k).1).toFinset).card = 0
       then 0
       else 2 ^ Nat.clog 2
         (max 16 ((([0] : List Nat).map fun k => (expand_index k).1).toFinset).card)) :=
  directory_growth [0] afterSet0 (by decide)

end Fatalloc
